import Mathlib

/-!
Shallow embedding of the LucidFuzzer mutation engine (`src/mutator.rs`).

Modelling conventions:
* Rust `usize`/`u64` values are Lean `Nat`s; arithmetic that can wrap on the
  64-bit machine (xorshift shifts, magic-number arithmetic, `usize`
  subtraction) is taken modulo `2 ^ 64`, matching release-build wrapping
  semantics.  Additions of list lengths and loop counters are left as plain
  `Nat` additions: a Rust `Vec` length is below `2 ^ 64`, so those additions
  cannot wrap on any realizable state.
* Operations that can panic (remainder by zero, out-of-bounds indexing and
  slicing, `unwrap` of `None`, a failed `assert!`) are modelled in `Option`:
  `none` is a panic, `some` a normal return.
* Byte buffers are `List Nat` (each element a byte value).
-/

set_option maxRecDepth 4096

def U64 : Nat := 2 ^ 64

/-- `MAX_STACK` from `mutator.rs`. -/
def MAX_STACK : Nat := 6

/-- `LONGSHOT_MUTATION_RATE` from `mutator.rs`. -/
def LONGSHOT_MUTATION_RATE : Nat := 5

/-- `GEN_SCRATCH_RATE` from `mutator.rs`. -/
def GEN_SCRATCH_RATE : Nat := 5

/-- `MAX_BYTE_CORRUPTION` from `mutator.rs`. -/
def MAX_BYTE_CORRUPTION : Nat := 64

/-- `MAX_BLOCK_CORRUPTION` from `mutator.rs`. -/
def MAX_BLOCK_CORRUPTION : Nat := 512

/-- `MAX_BIT_CORRUPTION` from `mutator.rs`. -/
def MAX_BIT_CORRUPTION : Nat := 64

/-- The `MAGIC_NUMBERS` table from `mutator.rs`, with every Rust constant
expression (`as`-casts sign-extend, `!` complements on 64 bits) evaluated to
its `u64` value. -/
def MAGIC_NUMBERS : List Nat := [
  0,
  0xFFFFFFFFFFFFFFFF,           -- u64::MAX
  0xFFFFFFFF,                   -- u32::MAX as u64
  0xFFFF,                       -- u16::MAX as u64
  0xFF,                         -- u8::MAX as u64
  0x7FFFFFFFFFFFFFFF,           -- i64::MAX as u64
  0x7FFFFFFF,                   -- i32::MAX as u64
  0x7FFF,                       -- i16::MAX as u64
  0x7F,                         -- i8::MAX as u64
  0x8000000000000000,           -- i64::MIN as u64
  0xFFFFFFFF80000000,           -- i32::MIN as u64 (sign-extended)
  0xFFFFFFFFFFFF8000,           -- i16::MIN as u64 (sign-extended)
  0xFFFFFFFFFFFFFF80,           -- i8::MIN as u64 (sign-extended)
  0x8000000000000000,           -- 1 << 63
  0x80000000,                   -- 1 << 31
  0x8000,                       -- 1 << 15
  0x80,                         -- 1 << 7
  0x7FFFFFFFFFFFFFFF,           -- not (1 << 63)
  0x7FFFFFFF,                   -- not (1 << 31) masked to 32 bits
  0x7FFF,                       -- not (1 << 15) masked to 16 bits
  0x7F,                         -- not (1 << 7) masked to 8 bits
  2, 4, 8, 16, 32, 64, 128, 256, 512, 1024, 2048, 4096, 8192, 16384]

/-- The `MutationTypes` enum from `mutator.rs`. -/
inductive MutationTypes where
  | ByteInsert
  | ByteOverwrite
  | ByteDelete
  | BlockInsert
  | BlockOverwrite
  | BlockDelete
  | BitFlip
  | Grow
  | Truncate
  | MagicByteInsert
  | MagicByteOverwrite
  | Splice
  deriving DecidableEq, Repr

/-- The `MUTATIONS` dispatch table from `mutator.rs`, in source order. -/
def MUTATIONS : List MutationTypes := [
  .ByteInsert, .ByteOverwrite, .ByteDelete,
  .BlockInsert, .BlockOverwrite, .BlockDelete,
  .BitFlip, .Grow, .Truncate,
  .MagicByteInsert, .MagicByteOverwrite, .Splice]

/-- Modelled from the spec: the `Corpus` type lives in `corpus.rs`, which is
not under `src/`; §6 of the spec describes it as a read-only collection with
`num_inputs()` (the number of inputs) and `get_input(i)` (the i-th input or
absent when out of range).  A list of byte strings realizes exactly that
interface: `num_inputs` is `List.length` and `get_input` is `List.get?`. -/
abbrev Corpus := List (List Nat)

/-- The `Mutator` struct from `mutator.rs`. -/
structure Mutator where
  rng : Nat
  input : List Nat
  max_size : Nat
  last_mutation : List MutationTypes
  deriving Repr, DecidableEq

/-- Wrapping 64-bit subtraction: release-mode semantics of Rust `a - b` on
`usize`/`u64` operands (both below `2 ^ 64`). -/
def wsub (a b : Nat) : Nat := (a + (U64 - b % U64)) % U64

/-- Rust `a % b`: panics (returns `none`) when the divisor is zero. -/
def rmod (a b : Nat) : Option Nat := if b = 0 then none else some (a % b)

/-- `generate_seed` from `mutator.rs` hashes the CPU time-stamp counter; the
hardware entropy is modelled as the explicit argument `tsc_hash` (the value
`hasher.finish()` would produce), truncated to 64 bits like the Rust cast to
`usize`. -/
def generate_seed (tsc_hash : Nat) : Nat := tsc_hash % U64

/-- `Mutator::new` from `mutator.rs`.  The `tsc_hash` argument feeds
`generate_seed` for the seedless path; a provided seed is a `usize`, hence
reduced mod `2 ^ 64`. -/
def Mutator.new (seed : Option Nat) (tsc_hash : Nat) (max_size : Nat) : Mutator :=
  let rng := match seed with
    | some seed_val => seed_val % U64
    | none => generate_seed tsc_hash
  { rng := rng, input := [], max_size := max_size, last_mutation := [] }

/-- `Mutator::reseed` from `mutator.rs`: replace the state with a fresh
TSC-derived seed and return it. -/
def Mutator.reseed (m : Mutator) (tsc_hash : Nat) : Nat × Mutator :=
  (generate_seed tsc_hash, { m with rng := generate_seed tsc_hash })

/-- The xorshift state update performed by one call of `Mutator::rand`:
`s ^= s << 13; s ^= s >> 17; s ^= s << 43` on 64-bit words. -/
def xorshift_step (s : Nat) : Nat :=
  let s1 := s ^^^ ((s <<< 13) % U64)
  let s2 := s1 ^^^ (s1 >>> 17)
  s2 ^^^ ((s2 <<< 43) % U64)

/-- `Mutator::rand` from `mutator.rs`: return the current state and advance
it with the xorshift triple (13, 17, 43). -/
def Mutator.rand (m : Mutator) : Nat × Mutator :=
  (m.rng, { m with rng := xorshift_step m.rng })

/-- `Mutator::rand` iterated `n` times (discarding the drawn values). -/
def randIter : Nat → Mutator → Mutator
  | 0, m => m
  | n + 1, m => randIter n (m.rand).2

/-- Checked read of the slice `l[s .. s+n]`: Rust slicing panics when the
range end exceeds the length. -/
def readBytes (l : List Nat) (s n : Nat) : Option (List Nat) :=
  if s + n ≤ l.length then some ((l.drop s).take n) else none

/-- Write the bytes `bs` at consecutive indices starting at `i`
(`input[i + j] = byte`): each write panics when its index is out of
bounds. -/
def writeBytes : List Nat → Nat → List Nat → Option (List Nat)
  | l, _, [] => some l
  | l, i, b :: rest => if i < l.length then writeBytes (l.set i b) (i + 1) rest else none

/-- Insert the bytes `bs` one by one at indices `i, i+1, ...`
(`input.insert(i + j, byte)`): `Vec::insert` panics when the index exceeds
the current length. -/
def insertBlockAt : List Nat → Nat → List Nat → Option (List Nat)
  | l, _, [] => some l
  | l, i, b :: rest =>
    if i ≤ l.length then insertBlockAt (l.insertIdx i b) (i + 1) rest else none

/-- The insertion loop of `Mutator::byte_insert`: each round draws an index
against the current (growing) length and a byte, and inserts. -/
def byteInsertLoop : Nat → Mutator → Option Mutator
  | 0, m => some m
  | n + 1, m =>
    let (r1, m1) := m.rand
    match rmod r1 m1.input.length with
    | none => none
    | some curr_idx =>
      let (r2, m2) := m1.rand
      let byte := r2 % 256
      byteInsertLoop n { m2 with input := m2.input.insertIdx curr_idx byte }

/-- `Mutator::byte_insert` from `mutator.rs`. -/
def byte_insert (m : Mutator) : Option Mutator :=
  let slack := wsub m.max_size m.input.length
  if slack = 0 then some m
  else
    let ceiling := min slack MAX_BYTE_CORRUPTION
    let (r, m1) := m.rand
    match rmod r ceiling with
    | none => none
    | some v => byteInsertLoop (v + 1) m1

/-- The overwrite loop of `Mutator::byte_overwrite`. -/
def byteOverwriteLoop : Nat → Mutator → Option Mutator
  | 0, m => some m
  | n + 1, m =>
    let (r1, m1) := m.rand
    match rmod r1 m1.input.length with
    | none => none
    | some curr_idx =>
      let (r2, m2) := m1.rand
      let byte := r2 % 256
      byteOverwriteLoop n { m2 with input := m2.input.set curr_idx byte }

/-- `Mutator::byte_overwrite` from `mutator.rs`.  Note there is no emptiness
check: `ceiling = min(len, 64)` is 0 on an empty input and the remainder
`rand() % ceiling` is a division by zero. -/
def byte_overwrite (m : Mutator) : Option Mutator :=
  let ceiling := min m.input.length MAX_BYTE_CORRUPTION
  let (r, m1) := m.rand
  match rmod r ceiling with
  | none => none
  | some v => byteOverwriteLoop (v + 1) m1

/-- The deletion loop of `Mutator::byte_delete`: each round draws an index
against the current length and removes that element. -/
def byteDeleteLoop : Nat → Mutator → Option Mutator
  | 0, m => some m
  | n + 1, m =>
    let (r, m1) := m.rand
    match rmod r m1.input.length with
    | none => none
    | some curr_idx => byteDeleteLoop n { m1 with input := m1.input.eraseIdx curr_idx }

/-- The body of `Mutator::byte_delete` after the `let ceiling = ...` binding;
the ceiling is passed as a parameter. -/
def byte_delete_go (m : Mutator) (ceiling : Nat) : Option Mutator :=
  if ceiling = 0 then some m
  else
    let (r, m1) := m.rand
    match rmod r ceiling with
    | none => none
    | some v => byteDeleteLoop (v + 1) m1

/-- `Mutator::byte_delete` from `mutator.rs`:
`ceiling = min(input.len() - 1, MAX_DELETES)` with wrapping subtraction. -/
def byte_delete (m : Mutator) : Option Mutator :=
  byte_delete_go m (min (wsub m.input.length 1) MAX_BYTE_CORRUPTION)

/-- `Mutator::block_insert` from `mutator.rs`.  The 512-byte scratch array
that the Rust code copies the block through is represented by the read
block list itself. -/
def block_insert (m : Mutator) : Option Mutator :=
  let slack := wsub m.max_size m.input.length
  if slack = 0 then some m
  else
    let ceiling0 := min slack MAX_BLOCK_CORRUPTION
    let ceiling := if ceiling0 > m.input.length then m.input.length else ceiling0
    let (r1, m1) := m.rand
    match rmod r1 ceiling with
    | none => none
    | some v =>
      let block_size := v + 1
      let max_start := wsub m1.input.length block_size
      let (r2, m2) := m1.rand
      let block_start := r2 % (max_start + 1)
      match readBytes m2.input block_start block_size with
      | none => none
      | some block =>
        let (r3, m3) := m2.rand
        match rmod r3 m3.input.length with
        | none => none
        | some ins =>
          match insertBlockAt m3.input ins block with
          | none => none
          | some input2 => some { m3 with input := input2 }

/-- `Mutator::block_overwrite` from `mutator.rs`. -/
def block_overwrite (m : Mutator) : Option Mutator :=
  let ceiling := min m.input.length MAX_BLOCK_CORRUPTION
  let (r1, m1) := m.rand
  match rmod r1 ceiling with
  | none => none
  | some v =>
    let block_size := v + 1
    let max_start := wsub m1.input.length block_size
    let (r2, m2) := m1.rand
    let block_start := r2 % (max_start + 1)
    match readBytes m2.input block_start block_size with
    | none => none
    | some block =>
      let (r3, m3) := m2.rand
      let overwrite_start := r3 % (max_start + 1)
      match writeBytes m3.input overwrite_start block with
      | none => none
      | some input2 => some { m3 with input := input2 }

/-- The body of `Mutator::block_delete` after the `let ceiling = ...`
binding; the ceiling is passed as a parameter.  `Vec::drain(a..b)` removes
the range and panics when the range end exceeds the length. -/
def block_delete_go (m : Mutator) (ceiling : Nat) : Option Mutator :=
  if ceiling = 0 then some m
  else
    let (r1, m1) := m.rand
    match rmod r1 ceiling with
    | none => none
    | some v =>
      let block_size := v + 1
      let max_start := wsub m1.input.length block_size
      let (r2, m2) := m1.rand
      let block_start := r2 % (max_start + 1)
      if block_start + block_size ≤ m2.input.length then
        some { m2 with
               input := m2.input.take block_start ++ m2.input.drop (block_start + block_size) }
      else none

/-- `Mutator::block_delete` from `mutator.rs`:
`ceiling = min(input.len() - 1, MAX_BLOCK_SIZE)` with wrapping subtraction. -/
def block_delete (m : Mutator) : Option Mutator :=
  block_delete_go m (min (wsub m.input.length 1) MAX_BLOCK_CORRUPTION)

/-- `Vec::resize(n, v)`: truncate to `n` or extend with copies of `v`. -/
def listResize (l : List Nat) (n : Nat) (v : Nat) : List Nat :=
  if n ≤ l.length then l.take n else l ++ List.replicate (n - l.length) v

/-- The fill loop of `Mutator::generate_random_input`: `input[i] = rand() % 256`
for `i` in `0..input_size`.  Every index is below the freshly resized
length, so the write cannot panic. -/
def fillLoop : Nat → Nat → Mutator → Mutator
  | 0, _, m => m
  | n + 1, i, m =>
    let (r, m1) := m.rand
    fillLoop n (i + 1) { m1 with input := m1.input.set i (r % 256) }

/-- `Mutator::generate_random_input` from `mutator.rs`. -/
def generate_random_input (m : Mutator) : Option Mutator :=
  let (r, m1) := m.rand
  match rmod r m1.max_size with
  | none => none
  | some v =>
    let input_size := v + 1
    some (fillLoop input_size 0 { m1 with input := listResize m1.input input_size 0 })

/-- The flip loop of `Mutator::bit_flip`; `num_bits` is computed once before
the loop in the Rust code and the length never changes inside it. -/
def flipLoop : Nat → Nat → Mutator → Option Mutator
  | _, 0, m => some m
  | num_bits, n + 1, m =>
    let (r, m1) := m.rand
    match rmod r num_bits with
    | none => none
    | some bit_position =>
      let byte_index := bit_position / 8
      let bit_index := bit_position % 8
      if byte_index < m1.input.length then
        flipLoop num_bits n
          { m1 with
            input := m1.input.set byte_index ((m1.input.getD byte_index 0) ^^^ (1 <<< bit_index)) }
      else none

/-- `Mutator::bit_flip` from `mutator.rs`. -/
def bit_flip (m : Mutator) : Option Mutator :=
  let num_bits := m.input.length * 8
  let ceiling := min num_bits MAX_BIT_CORRUPTION
  let (r, m1) := m.rand
  match rmod r ceiling with
  | none => none
  | some v => flipLoop num_bits (v + 1) m1

/-- The insertion loop of `Mutator::grow`: the same byte is inserted at the
same index `size` times; the index is below the (growing) length throughout,
so `Vec::insert` cannot panic. -/
def growLoop : Nat → Nat → Nat → Mutator → Mutator
  | 0, _, _, m => m
  | n + 1, idx, byte, m => growLoop n idx byte { m with input := m.input.insertIdx idx byte }

/-- `Mutator::grow` from `mutator.rs`. -/
def grow (m : Mutator) : Option Mutator :=
  let slack := wsub m.max_size m.input.length
  if slack = 0 then some m
  else
    let (r1, m1) := m.rand
    let size := r1 % slack + 1
    let (r2, m2) := m1.rand
    match rmod r2 m2.input.length with
    | none => none
    | some idx =>
      let (r3, m3) := m2.rand
      let byte := r3 % 256
      some (growLoop size idx byte m3)

/-- `Mutator::truncate` from `mutator.rs`; `Vec::truncate` is a no-op when
the index is not below the length, exactly like `List.take`. -/
def truncate (m : Mutator) : Option Mutator :=
  let slack := wsub m.input.length 1
  if slack = 0 then some m
  else
    let (r, m1) := m.rand
    let idx := r % slack + 1
    some { m1 with input := m1.input.take idx }

/-- `u64::to_ne_bytes` on the only supported platform class (x86-64):
little-endian byte order, least significant byte first. -/
def toLEBytes (x : Nat) : List Nat :=
  [x % 256, x / 2 ^ 8 % 256, x / 2 ^ 16 % 256, x / 2 ^ 24 % 256,
   x / 2 ^ 32 % 256, x / 2 ^ 40 % 256, x / 2 ^ 48 % 256, x / 2 ^ 56 % 256]

/-- `u64::swap_bytes`: reverse the byte order of a 64-bit word. -/
def u64_swap_bytes (x : Nat) : Nat :=
  x % 256 * 2 ^ 56 + x / 2 ^ 8 % 256 * 2 ^ 48 + x / 2 ^ 16 % 256 * 2 ^ 40 +
  x / 2 ^ 24 % 256 * 2 ^ 32 + x / 2 ^ 32 % 256 * 2 ^ 24 + x / 2 ^ 40 % 256 * 2 ^ 16 +
  x / 2 ^ 48 % 256 * 2 ^ 8 + x / 2 ^ 56 % 256

/-- The first half of `Mutator::mutate_magic`: draw one of the 14 transforms
and apply it to the magic value (wrapping 64-bit arithmetic).  The final
arm models the `unreachable!()` branch, which `rand() % 14` can never
select. -/
def magicTransform (m : Mutator) (magic : Nat) : Option (Nat × Mutator) :=
  let (r1, m1) := m.rand
  match r1 % 14 with
  | 0 => some (magic, m1)
  | 1 => some (magic &&& 0xFF, m1)
  | 2 => some (magic &&& 0xFFFF, m1)
  | 3 => some (magic &&& 0xFFFFFFFF, m1)
  | 4 => some (wsub magic 1, m1)                          -- magic - 1
  | 5 => some ((magic + 1) % U64, m1)                     -- magic + 1
  | 6 => some (magic ^^^ (U64 - 1), m1)                   -- bitwise NOT
  | 7 => some ((magic <<< 1) % U64, m1)                   -- left shift by 1
  | 8 => some (magic >>> 1, m1)                           -- right shift by 1
  | 9 => some (((magic <<< 8) % U64) ||| (magic >>> 56), m1)   -- rotate_left 8
  | 10 => some ((magic >>> 8) ||| ((magic <<< 56) % U64), m1)  -- rotate_right 8
  | 11 => some (magic ^^^ 0xFFFFFFFF, m1)                 -- XOR with 32-bit all-ones
  | 12 => some (u64_swap_bytes magic, m1)                 -- swap byte order
  | 13 =>
    let (r2, m2) := m1.rand
    let bit := r2 % 64
    some (magic ^^^ (1 <<< bit), m2)                      -- flip a random bit
  | _ => none

/-- `Mutator::mutate_magic` from `mutator.rs`: transform the magic value,
then draw one of the 15 byte-slices of its native-endian representation.
The final arm models the `unreachable!()` branch, which `rand() % 15` can
never select. -/
def mutate_magic (m : Mutator) (magic0 : Nat) : Option (List Nat × Mutator) :=
  match magicTransform m magic0 with
  | none => none
  | some (magic, m1) =>
    let magic_bytes := toLEBytes magic
    let (r, m2) := m1.rand
    match r % 15 with
    | 0 => some (magic_bytes, m2)                         -- all 8 bytes
    | 1 => some (magic_bytes.take 4, m2)                  -- bytes [0..4]
    | 2 => some (magic_bytes.drop 4, m2)                  -- bytes [4..8]
    | 3 => some (magic_bytes.take 2, m2)                  -- bytes [0..2]
    | 4 => some ((magic_bytes.drop 2).take 2, m2)         -- bytes [2..4]
    | 5 => some ((magic_bytes.drop 4).take 2, m2)         -- bytes [4..6]
    | 6 => some (magic_bytes.drop 6, m2)                  -- bytes [6..8]
    | 7 => some ([magic_bytes.getD 0 0], m2)
    | 8 => some ([magic_bytes.getD 1 0], m2)
    | 9 => some ([magic_bytes.getD 2 0], m2)
    | 10 => some ([magic_bytes.getD 3 0], m2)
    | 11 => some ([magic_bytes.getD 4 0], m2)
    | 12 => some ([magic_bytes.getD 5 0], m2)
    | 13 => some ([magic_bytes.getD 6 0], m2)
    | 14 => some ([magic_bytes.getD 7 0], m2)
    | _ => none

/-- The insertion loop of `Mutator::magic_byte_insert`. -/
def magicInsertLoop : Nat → Mutator → Option Mutator
  | 0, m => some m
  | n + 1, m =>
    let (r1, m1) := m.rand
    match rmod r1 m1.input.length with
    | none => none
    | some idx =>
      let (r2, m2) := m1.rand
      let magic := MAGIC_NUMBERS.getD (r2 % MAGIC_NUMBERS.length) 0
      let (r3, m3) := m2.rand
      match (if r3 % 2 = 0 then mutate_magic m3 magic else some (toLEBytes magic, m3)) with
      | none => none
      | some (magic_bytes, m4) =>
        match insertBlockAt m4.input idx magic_bytes with
        | none => none
        | some input2 => magicInsertLoop n { m4 with input := input2 }

/-- `Mutator::magic_byte_insert` from `mutator.rs`. -/
def magic_byte_insert (m : Mutator) : Option Mutator :=
  let slack := wsub m.max_size m.input.length
  if slack = 0 then some m
  else
    let ceiling := min slack MAX_BYTE_CORRUPTION
    let (r, m1) := m.rand
    match rmod r ceiling with
    | none => none
    | some v =>
      let insert_num := v + 1
      let num_u64 := insert_num / 8
      magicInsertLoop num_u64 m1

/-- The overwrite loop of `Mutator::magic_byte_overwrite`; `max_overwrite`
is computed once before the loop in the Rust code. -/
def magicOverwriteLoop : Nat → Nat → Mutator → Option Mutator
  | _, 0, m => some m
  | max_overwrite, n + 1, m =>
    let (r1, m1) := m.rand
    let idx := r1 % (max_overwrite + 1)
    let (r2, m2) := m1.rand
    let magic := MAGIC_NUMBERS.getD (r2 % MAGIC_NUMBERS.length) 0
    let (r3, m3) := m2.rand
    match (if r3 % 2 = 0 then mutate_magic m3 magic else some (toLEBytes magic, m3)) with
    | none => none
    | some (magic_bytes, m4) =>
      match writeBytes m4.input idx magic_bytes with
      | none => none
      | some input2 => magicOverwriteLoop max_overwrite n { m4 with input := input2 }

/-- `Mutator::magic_byte_overwrite` from `mutator.rs`. -/
def magic_byte_overwrite (m : Mutator) : Option Mutator :=
  if m.input.length < 8 then some m
  else
    let ceiling := min m.input.length MAX_BYTE_CORRUPTION
    let (r, m1) := m.rand
    match rmod r ceiling with
    | none => none
    | some v =>
      let overwrite_num := v + 1
      let num_u64 := overwrite_num / 8
      let max_overwrite := wsub m1.input.length 8
      magicOverwriteLoop max_overwrite num_u64 m1

/-- `Mutator::splice` from `mutator.rs`.  The `copy_within` of the old block
to the front is modelled as a checked read followed by a checked write, and
the `let Some(..) else return` on a missing corpus input is a silent no-op,
not a panic. -/
def splice (m : Mutator) (corpus : Corpus) : Option Mutator :=
  let (r1, m1) := m.rand
  match rmod r1 m1.input.length with
  | none => none
  | some old_block_start =>
    let (r2, m2) := m1.rand
    match rmod r2 (wsub m2.input.length old_block_start) with
    | none => none
    | some v2 =>
      let old_block_len := v2 + 1
      let (r3, m3) := m2.rand
      match rmod r3 corpus.length with
      | none => none
      | some new_idx =>
        match corpus.get? new_idx with
        | none => some m3
        | some new_input =>
          let slack := wsub m3.max_size old_block_len
          if slack = 0 then some m3
          else
            let (r4, m4) := m3.rand
            match rmod r4 new_input.length with
            | none => none
            | some new_block_start =>
              let new_ceiling := min (wsub new_input.length new_block_start) slack
              let (r5, m5) := m4.rand
              match rmod r5 new_ceiling with
              | none => none
              | some v5 =>
                let new_block_len := v5 + 1
                let total_len := old_block_len + new_block_len
                let input1 := if total_len > m5.input.length
                  then listResize m5.input total_len 0 else m5.input
                match readBytes input1 old_block_start old_block_len with
                | none => none
                | some old_block =>
                  match writeBytes input1 0 old_block with
                  | none => none
                  | some input2 =>
                    match readBytes new_input new_block_start new_block_len with
                    | none => none
                    | some new_block =>
                      match writeBytes input2 old_block_len new_block with
                      | none => none
                      | some input3 =>
                        let input4 :=
                          if total_len < input3.length then input3.take total_len else input3
                        some { m5 with input := input4 }

/-- `self.last_mutation.push(tag)` after a successful operator call. -/
def pushTag (t : MutationTypes) (m : Mutator) : Mutator :=
  { m with last_mutation := m.last_mutation ++ [t] }

/-- One arm of the `match MUTATIONS[mutation_idx]` dispatch in
`Mutator::mutate_input`: run the operator, then record its tag. -/
def applyMutation (t : MutationTypes) (corpus : Corpus) (m : Mutator) : Option Mutator :=
  match t with
  | .ByteInsert => (byte_insert m).map (pushTag .ByteInsert)
  | .ByteOverwrite => (byte_overwrite m).map (pushTag .ByteOverwrite)
  | .ByteDelete => (byte_delete m).map (pushTag .ByteDelete)
  | .BlockInsert => (block_insert m).map (pushTag .BlockInsert)
  | .BlockOverwrite => (block_overwrite m).map (pushTag .BlockOverwrite)
  | .BlockDelete => (block_delete m).map (pushTag .BlockDelete)
  | .BitFlip => (bit_flip m).map (pushTag .BitFlip)
  | .Grow => (grow m).map (pushTag .Grow)
  | .Truncate => (truncate m).map (pushTag .Truncate)
  | .MagicByteInsert => (magic_byte_insert m).map (pushTag .MagicByteInsert)
  | .MagicByteOverwrite => (magic_byte_overwrite m).map (pushTag .MagicByteOverwrite)
  | .Splice => (splice m corpus).map (pushTag .Splice)

/-- The stacked-mutation loop of `Mutator::mutate_input`: each round draws
the longshot gate, picks an operator from the pool, and applies it. -/
def roundsLoop : Nat → Corpus → Mutator → Option Mutator
  | 0, _, m => some m
  | n + 1, corpus, m =>
    let (l0, m1) := m.rand
    let longshot := l0 % 100
    let pool := if longshot ≤ LONGSHOT_MUTATION_RATE then MUTATIONS.length
      else MUTATIONS.length - 3
    let (r, m2) := m1.rand
    let mutation_idx := r % pool
    match applyMutation (MUTATIONS.getD mutation_idx .ByteInsert) corpus m2 with
    | none => none
    | some m3 => roundsLoop n corpus m3

/-- `Mutator::mutate_input` from `mutator.rs`.  The two trailing `assert!`
calls are modelled as guards: a failed assertion is a panic (`none`). -/
def mutate_input (m0 : Mutator) (corpus : Corpus) : Option Mutator :=
  let m := { m0 with input := [], last_mutation := [] }
  let num_inputs := corpus.length
  let (g, m1) := m.rand
  let gen := g % 100
  if num_inputs = 0 ∨ gen < GEN_SCRATCH_RATE then
    generate_random_input m1
  else
    let (r1, m2) := m1.rand
    let idx := r1 % num_inputs
    match corpus.get? idx with
    | none => none
    | some chosen =>
      let m3 := { m2 with input := m2.input ++ chosen }
      let (r2, m4) := m3.rand
      let rounds := r2 % MAX_STACK + 1
      match roundsLoop rounds corpus m4 with
      | none => none
      | some m5 =>
        if m5.input.length = 0 then none
        else if m5.max_size < m5.input.length then none
        else some m5

/-- `Mutator::memcpy_input` from `mutator.rs`: clear the buffer, then copy
the given slice into it. -/
def memcpy_input (m : Mutator) (slice : List Nat) : Mutator :=
  { m with input := [] ++ slice }

/-- `mutate_input` iterated over a fixed corpus, propagating panics. -/
def iterMutate : Nat → Corpus → Mutator → Option Mutator
  | 0, _, m => some m
  | n + 1, corpus, m =>
    match mutate_input m corpus with
    | none => none
    | some m1 => iterMutate n corpus m1

theorem listResize_length (l : List Nat) (n v : Nat) : (listResize l n v).length = n := by
  unfold listResize
  split <;> simp <;> omega

theorem readBytes_length (l : List Nat) (s n : Nat) (bs : List Nat)
    (h : readBytes l s n = some bs) : bs.length = n := by
  unfold readBytes at h
  split at h
  · cases h
    simp
    omega
  · exact Option.noConfusion h

theorem writeBytes_length : ∀ (bs l : List Nat) (i : Nat) (l' : List Nat),
    writeBytes l i bs = some l' → l'.length = l.length := by
  intro bs
  induction bs with
  | nil => intro l i l' h; cases h; rfl
  | cons b rest ih =>
    intro l i l' h
    unfold writeBytes at h
    split at h
    · have := ih (l.set i b) (i + 1) l' h
      simpa using this
    · exact Option.noConfusion h

theorem writeBytes_total : ∀ (bs l : List Nat) (i : Nat), i + bs.length ≤ l.length →
    ∃ l', writeBytes l i bs = some l' ∧ l'.length = l.length := by
  intro bs
  induction bs with
  | nil => intro l i _; exact ⟨l, rfl, rfl⟩
  | cons b rest ih =>
    intro l i h
    simp only [List.length_cons] at h
    have hi : i < l.length := by omega
    obtain ⟨l', hw, hl⟩ := ih (l.set i b) (i + 1) (by simpa using (by omega : i + 1 + rest.length ≤ l.length))
    refine ⟨l', ?_, by simpa using hl⟩
    unfold writeBytes
    rw [if_pos hi]
    exact hw

theorem insertBlockAt_length : ∀ (bs l : List Nat) (i : Nat) (l' : List Nat),
    insertBlockAt l i bs = some l' → l'.length = l.length + bs.length := by
  intro bs
  induction bs with
  | nil => intro l i l' h; cases h; rfl
  | cons b rest ih =>
    intro l i l' h
    unfold insertBlockAt at h
    split at h
    · have := ih (l.insertIdx i b) (i + 1) l' h
      rw [this, List.length_insertIdx i l (by assumption)]
      simp
      omega
    · exact Option.noConfusion h

theorem rmod_eq_some {a b v : Nat} (h : rmod a b = some v) : b ≠ 0 ∧ v = a % b := by
  unfold rmod at h
  split at h
  · exact Option.noConfusion h
  · cases h; exact ⟨by assumption, rfl⟩

theorem rmod_lt {a b v : Nat} (h : rmod a b = some v) : v < b := by
  obtain ⟨hb, hv⟩ := rmod_eq_some h
  exact hv ▸ Nat.mod_lt _ (Nat.pos_of_ne_zero hb)

theorem two_pow_64_eq : (2 : Nat) ^ 64 = 18446744073709551616 := by norm_num

theorem wsub_of_le {a b : Nat} (hb : b ≤ a) (ha : a < U64) : wsub a b = a - b := by
  unfold wsub U64 at *
  rw [two_pow_64_eq] at *
  omega

theorem byteInsertLoop_spec : ∀ n m m', byteInsertLoop n m = some m' →
    m'.max_size = m.max_size ∧ m.input.length ≤ m'.input.length := by
  intro n
  induction n with
  | zero => intro m m' h; cases h; exact ⟨rfl, Nat.le_refl _⟩
  | succ n ih =>
    intro m m' h
    unfold byteInsertLoop at h
    simp only [Mutator.rand] at h
    split at h
    · exact Option.noConfusion h
    · rename_i curr_idx heq
      have hlt : curr_idx < m.input.length := rmod_lt heq
      obtain ⟨hmax, hlen⟩ := ih _ _ h
      refine ⟨hmax, Nat.le_trans ?_ hlen⟩
      show m.input.length ≤ (List.insertIdx curr_idx _ m.input).length
      rw [List.length_insertIdx curr_idx m.input (Nat.le_of_lt hlt)]
      omega

theorem byteOverwriteLoop_spec : ∀ n m m', byteOverwriteLoop n m = some m' →
    m'.max_size = m.max_size ∧ m'.input.length = m.input.length := by
  intro n
  induction n with
  | zero => intro m m' h; cases h; exact ⟨rfl, rfl⟩
  | succ n ih =>
    intro m m' h
    unfold byteOverwriteLoop at h
    simp only [Mutator.rand] at h
    split at h
    · exact Option.noConfusion h
    · rename_i curr_idx heq
      obtain ⟨hmax, hlen⟩ := ih _ _ h
      refine ⟨hmax, ?_⟩
      rw [hlen]
      exact List.length_set _ _ _

theorem byteDeleteLoop_spec : ∀ n m m', byteDeleteLoop n m = some m' →
    m'.max_size = m.max_size ∧ m'.input.length + n = m.input.length := by
  intro n
  induction n with
  | zero => intro m m' h; cases h; exact ⟨rfl, rfl⟩
  | succ n ih =>
    intro m m' h
    unfold byteDeleteLoop at h
    simp only [Mutator.rand] at h
    split at h
    · exact Option.noConfusion h
    · rename_i curr_idx heq
      have hlt : curr_idx < m.input.length := rmod_lt heq
      obtain ⟨hmax, hlen⟩ := ih _ _ h
      refine ⟨hmax, ?_⟩
      have hlen2 : m'.input.length + n = (m.input.eraseIdx curr_idx).length := hlen
      rw [List.length_eraseIdx _ _, if_pos hlt] at hlen2
      omega

theorem flipLoop_spec : ∀ n nb m m', flipLoop nb n m = some m' →
    m'.max_size = m.max_size ∧ m'.input.length = m.input.length := by
  intro n
  induction n with
  | zero => intro nb m m' h; cases h; exact ⟨rfl, rfl⟩
  | succ n ih =>
    intro nb m m' h
    unfold flipLoop at h
    simp only [Mutator.rand] at h
    split at h
    · exact Option.noConfusion h
    · rename_i bit_position heq
      split at h
      · obtain ⟨hmax, hlen⟩ := ih _ _ _ h
        refine ⟨hmax, ?_⟩
        rw [hlen]
        exact List.length_set _ _ _
      · exact Option.noConfusion h

theorem growLoop_spec : ∀ n idx byte m,
    (growLoop n idx byte m).max_size = m.max_size ∧
    m.input.length ≤ (growLoop n idx byte m).input.length := by
  intro n
  induction n with
  | zero => intro idx byte m; exact ⟨rfl, Nat.le_refl _⟩
  | succ n ih =>
    intro idx byte m
    unfold growLoop
    obtain ⟨hmax, hlen⟩ := ih idx byte { m with input := m.input.insertIdx idx byte }
    refine ⟨hmax, Nat.le_trans ?_ hlen⟩
    show m.input.length ≤ (List.insertIdx idx byte m.input).length
    by_cases hc : idx ≤ m.input.length
    · rw [List.length_insertIdx idx m.input hc]; omega
    · rw [List.insertIdx_of_length_lt m.input byte idx (by omega)]

theorem fillLoop_spec : ∀ n i m,
    (fillLoop n i m).max_size = m.max_size ∧
    (fillLoop n i m).input.length = m.input.length := by
  intro n
  induction n with
  | zero => intro i m; exact ⟨rfl, rfl⟩
  | succ n ih =>
    intro i m
    unfold fillLoop
    simp only [Mutator.rand]
    obtain ⟨hmax, hlen⟩ := ih (i + 1)
      { m with rng := xorshift_step m.rng, input := m.input.set i (m.rng % 256) }
    refine ⟨hmax, ?_⟩
    rw [hlen]
    exact List.length_set _ _ _

theorem magicTransform_spec : ∀ m g, ∃ v m1, magicTransform m g = some (v, m1) ∧
    m1.input = m.input ∧ m1.max_size = m.max_size := by
  intro m g
  unfold magicTransform
  simp only [Mutator.rand]
  have h : m.rng % 14 < 14 := Nat.mod_lt _ (by norm_num)
  revert h
  generalize m.rng % 14 = k
  intro h
  interval_cases k <;> exact ⟨_, _, rfl, rfl, rfl⟩

theorem mutate_magic_spec : ∀ m g, ∃ bs m1, mutate_magic m g = some (bs, m1) ∧
    (bs.length = 1 ∨ bs.length = 2 ∨ bs.length = 4 ∨ bs.length = 8) ∧
    m1.input = m.input ∧ m1.max_size = m.max_size := by
  intro m g
  obtain ⟨v, m1, heq, hi, hm⟩ := magicTransform_spec m g
  unfold mutate_magic
  rw [heq]
  simp only [Mutator.rand]
  have h : m1.rng % 15 < 15 := Nat.mod_lt _ (by norm_num)
  revert h
  generalize m1.rng % 15 = k
  intro h
  interval_cases k <;> exact ⟨_, _, rfl, by simp [toLEBytes], hi, hm⟩

theorem mutate_magic_state : ∀ m g bs m1, mutate_magic m g = some (bs, m1) →
    m1.input = m.input ∧ m1.max_size = m.max_size := by
  intro m g bs m1 h
  obtain ⟨bs2, m2, heq, _, hi, hm⟩ := mutate_magic_spec m g
  rw [h] at heq
  simp only [Option.some.injEq, Prod.mk.injEq] at heq
  obtain ⟨h1, h2⟩ := heq
  subst h1
  subst h2
  exact ⟨hi, hm⟩

theorem mutate_magic_len : ∀ m g bs m1, mutate_magic m g = some (bs, m1) →
    bs.length = 1 ∨ bs.length = 2 ∨ bs.length = 4 ∨ bs.length = 8 := by
  intro m g bs m1 h
  obtain ⟨bs2, m2, heq, hl, _, _⟩ := mutate_magic_spec m g
  rw [h] at heq
  simp only [Option.some.injEq, Prod.mk.injEq] at heq
  obtain ⟨h1, h2⟩ := heq
  subst h1
  exact hl


theorem byte_insert_spec : ∀ m m', byte_insert m = some m' →
    m'.max_size = m.max_size ∧ m.input.length ≤ m'.input.length := by
  intro m m' h
  unfold byte_insert at h
  dsimp only [Mutator.rand] at h
  split at h
  · cases h; exact ⟨rfl, Nat.le_refl _⟩
  · split at h
    · exact Option.noConfusion h
    · obtain ⟨hmax, hlen⟩ := byteInsertLoop_spec _ _ _ h
      exact ⟨hmax, hlen⟩

theorem byte_overwrite_spec : ∀ m m', byte_overwrite m = some m' →
    m'.max_size = m.max_size ∧ m'.input.length = m.input.length := by
  intro m m' h
  unfold byte_overwrite at h
  dsimp only [Mutator.rand] at h
  split at h
  · exact Option.noConfusion h
  · obtain ⟨hmax, hlen⟩ := byteOverwriteLoop_spec _ _ _ h
    exact ⟨hmax, hlen⟩


theorem byte_delete_go_spec : ∀ m ceiling m', byte_delete_go m ceiling = some m' →
    m'.max_size = m.max_size ∧
    (ceiling = 0 → m' = m) ∧
    (ceiling ≠ 0 → ∃ v, v < ceiling ∧ m'.input.length + (v + 1) = m.input.length) := by
  intro m ceiling m' h
  unfold byte_delete_go at h
  dsimp only [Mutator.rand] at h
  split at h
  · cases h
    exact ⟨rfl, fun _ => rfl, fun hne => absurd (by assumption) hne⟩
  · split at h
    · exact Option.noConfusion h
    · rename_i v heq
      obtain ⟨hmax, hlen⟩ := byteDeleteLoop_spec _ _ _ h
      exact ⟨hmax, fun hz => absurd hz (by assumption), fun _ => ⟨v, rmod_lt heq, hlen⟩⟩

theorem byte_delete_spec : ∀ m m', byte_delete m = some m' →
    m'.max_size = m.max_size ∧
    (1 ≤ m.input.length → m.input.length < U64 → 1 ≤ m'.input.length) := by
  intro m m' h
  have h2 : byte_delete_go m (min (wsub m.input.length 1) MAX_BYTE_CORRUPTION) = some m' := h
  obtain ⟨hmax, hz, hnz⟩ := byte_delete_go_spec _ _ _ h2
  refine ⟨hmax, fun h1 h2u => ?_⟩
  by_cases hc : min (wsub m.input.length 1) MAX_BYTE_CORRUPTION = 0
  · rw [hz hc]; exact h1
  · obtain ⟨v, hv, hlen⟩ := hnz hc
    rw [wsub_of_le h1 h2u] at hv
    have h3 : min (m.input.length - 1) MAX_BYTE_CORRUPTION ≤ m.input.length - 1 :=
      Nat.min_le_left _ _
    omega

theorem block_insert_spec : ∀ m m', block_insert m = some m' →
    m'.max_size = m.max_size ∧ m.input.length ≤ m'.input.length := by
  intro m m' h
  unfold block_insert at h
  dsimp only [Mutator.rand] at h
  split at h
  · cases h; exact ⟨rfl, Nat.le_refl _⟩
  · split at h
    · exact Option.noConfusion h
    · split at h
      · exact Option.noConfusion h
      · split at h
        · exact Option.noConfusion h
        · split at h
          · exact Option.noConfusion h
          · rename_i v hv block hblock ins hins input2 hinput2
            cases h
            refine ⟨rfl, ?_⟩
            have hl := insertBlockAt_length _ _ _ _ hinput2
            show m.input.length ≤ input2.length
            omega

theorem block_overwrite_spec : ∀ m m', block_overwrite m = some m' →
    m'.max_size = m.max_size ∧ m'.input.length = m.input.length := by
  intro m m' h
  unfold block_overwrite at h
  dsimp only [Mutator.rand] at h
  split at h
  · exact Option.noConfusion h
  · split at h
    · exact Option.noConfusion h
    · split at h
      · exact Option.noConfusion h
      · rename_i v hv block hblock input2 hinput2
        cases h
        exact ⟨rfl, writeBytes_length _ _ _ _ hinput2⟩

theorem bit_flip_spec : ∀ m m', bit_flip m = some m' →
    m'.max_size = m.max_size ∧ m'.input.length = m.input.length := by
  intro m m' h
  unfold bit_flip at h
  dsimp only [Mutator.rand] at h
  split at h
  · exact Option.noConfusion h
  · obtain ⟨hmax, hlen⟩ := flipLoop_spec _ _ _ _ h
    exact ⟨hmax, hlen⟩

theorem block_delete_go_spec : ∀ m ceiling m', block_delete_go m ceiling = some m' →
    m'.max_size = m.max_size ∧
    (ceiling = 0 → m' = m) ∧
    (ceiling ≠ 0 → ∃ v, v < ceiling ∧ m'.input.length + (v + 1) = m.input.length) := by
  intro m ceiling m' h
  unfold block_delete_go at h
  dsimp only [Mutator.rand] at h
  split at h
  · cases h
    exact ⟨rfl, fun _ => rfl, fun hne => absurd (by assumption) hne⟩
  · split at h
    · exact Option.noConfusion h
    · rename_i v heq
      split at h
      · rename_i hrange
        cases h
        refine ⟨rfl, fun hz => absurd hz (by assumption), fun _ => ⟨v, rmod_lt heq, ?_⟩⟩
        show (m.input.take _ ++ m.input.drop _).length + (v + 1) = m.input.length
        rw [List.length_append, List.length_take, List.length_drop]
        omega
      · exact Option.noConfusion h

theorem block_delete_spec : ∀ m m', block_delete m = some m' →
    m'.max_size = m.max_size ∧
    (1 ≤ m.input.length → m.input.length < U64 → 1 ≤ m'.input.length) := by
  intro m m' h
  have h2 : block_delete_go m (min (wsub m.input.length 1) MAX_BLOCK_CORRUPTION) = some m' := h
  obtain ⟨hmax, hz, hnz⟩ := block_delete_go_spec _ _ _ h2
  refine ⟨hmax, fun h1 h2u => ?_⟩
  by_cases hc : min (wsub m.input.length 1) MAX_BLOCK_CORRUPTION = 0
  · rw [hz hc]; exact h1
  · obtain ⟨v, hv, hlen⟩ := hnz hc
    rw [wsub_of_le h1 h2u] at hv
    have h3 : min (m.input.length - 1) MAX_BLOCK_CORRUPTION ≤ m.input.length - 1 :=
      Nat.min_le_left _ _
    omega

theorem grow_spec : ∀ m m', grow m = some m' →
    m'.max_size = m.max_size ∧ m.input.length ≤ m'.input.length := by
  intro m m' h
  unfold grow at h
  dsimp only [Mutator.rand] at h
  split at h
  · cases h; exact ⟨rfl, Nat.le_refl _⟩
  · split at h
    · exact Option.noConfusion h
    · rename_i idx heq
      cases h
      obtain ⟨hmax, hlen⟩ := growLoop_spec _ idx _ _
      exact ⟨hmax, hlen⟩

theorem truncate_spec : ∀ m m', truncate m = some m' →
    m'.max_size = m.max_size ∧ (1 ≤ m.input.length → 1 ≤ m'.input.length) := by
  intro m m' h
  unfold truncate at h
  dsimp only [Mutator.rand] at h
  split at h
  · cases h; exact ⟨rfl, fun h1 => h1⟩
  · cases h
    refine ⟨rfl, fun h1 => ?_⟩
    show 1 ≤ (List.take _ m.input).length
    rw [List.length_take]
    omega

theorem magicDraw_state : ∀ (c : Prop) [_inst : Decidable c] (m : Mutator) (g : Nat) bs m1,
    (if c then mutate_magic m g else some (toLEBytes g, m)) = some (bs, m1) →
    bs.length ≤ 8 ∧ m1.input = m.input ∧ m1.max_size = m.max_size := by
  intro c _inst m g bs m1 h
  split at h
  · obtain ⟨hi, hm⟩ := mutate_magic_state _ _ _ _ h
    have hl := mutate_magic_len _ _ _ _ h
    exact ⟨by omega, hi, hm⟩
  · cases h
    exact ⟨by simp [toLEBytes], rfl, rfl⟩

theorem magicInsertLoop_spec : ∀ n m m', magicInsertLoop n m = some m' →
    m'.max_size = m.max_size ∧ m.input.length ≤ m'.input.length := by
  intro n
  induction n with
  | zero => intro m m' h; cases h; exact ⟨rfl, Nat.le_refl _⟩
  | succ n ih =>
    intro m m' h
    unfold magicInsertLoop at h
    dsimp only [Mutator.rand] at h
    split at h
    · exact Option.noConfusion h
    · rename_i idx hidx
      split at h
      · exact Option.noConfusion h
      · rename_i p hdraw
        split at h
        · exact Option.noConfusion h
        · rename_i input2 hins
          obtain ⟨hmax, hlen⟩ := ih _ _ h
          obtain ⟨hbl, hi, hm⟩ := magicDraw_state _ _ _ _ _ hdraw
          have hl := insertBlockAt_length _ _ _ _ hins
          constructor
          · rw [hmax]; exact hm
          · refine Nat.le_trans ?_ hlen
            show m.input.length ≤ input2.length
            rw [hl, hi]
            show m.input.length ≤ m.input.length + _
            omega

theorem magic_byte_insert_spec : ∀ m m', magic_byte_insert m = some m' →
    m'.max_size = m.max_size ∧ m.input.length ≤ m'.input.length := by
  intro m m' h
  unfold magic_byte_insert at h
  dsimp only [Mutator.rand] at h
  split at h
  · cases h; exact ⟨rfl, Nat.le_refl _⟩
  · split at h
    · exact Option.noConfusion h
    · obtain ⟨hmax, hlen⟩ := magicInsertLoop_spec _ _ _ h
      exact ⟨hmax, hlen⟩

theorem magicOverwriteLoop_spec : ∀ n mo m m', magicOverwriteLoop mo n m = some m' →
    m'.max_size = m.max_size ∧ m'.input.length = m.input.length := by
  intro n
  induction n with
  | zero => intro mo m m' h; cases h; exact ⟨rfl, rfl⟩
  | succ n ih =>
    intro mo m m' h
    unfold magicOverwriteLoop at h
    dsimp only [Mutator.rand] at h
    split at h
    · exact Option.noConfusion h
    · rename_i p hdraw
      split at h
      · exact Option.noConfusion h
      · rename_i input2 hwrite
        obtain ⟨hmax, hlen⟩ := ih _ _ _ h
        obtain ⟨hbl, hi, hm⟩ := magicDraw_state _ _ _ _ _ hdraw
        have hl := writeBytes_length _ _ _ _ hwrite
        constructor
        · rw [hmax]; exact hm
        · rw [hlen]
          show input2.length = m.input.length
          rw [hl, hi]

theorem magic_byte_overwrite_spec : ∀ m m', magic_byte_overwrite m = some m' →
    m'.max_size = m.max_size ∧ m'.input.length = m.input.length := by
  intro m m' h
  unfold magic_byte_overwrite at h
  dsimp only [Mutator.rand] at h
  split at h
  · cases h; exact ⟨rfl, rfl⟩
  · split at h
    · exact Option.noConfusion h
    · obtain ⟨hmax, hlen⟩ := magicOverwriteLoop_spec _ _ _ _ h
      exact ⟨hmax, hlen⟩

theorem magicDraw_total : ∀ (c : Prop) [_inst : Decidable c] (m : Mutator) (g : Nat),
    ∃ bs m1, (if c then mutate_magic m g else some (toLEBytes g, m)) = some (bs, m1) := by
  intro c _inst m g
  split
  · obtain ⟨bs, m1, heq, _, _, _⟩ := mutate_magic_spec m g
    exact ⟨bs, m1, heq⟩
  · exact ⟨_, _, rfl⟩

theorem magicOverwriteLoop_total : ∀ n mo m, mo + 8 ≤ m.input.length →
    ∃ m', magicOverwriteLoop mo n m = some m' := by
  intro n
  induction n with
  | zero => intro mo m _; exact ⟨m, rfl⟩
  | succ n ih =>
    intro mo m hmo
    unfold magicOverwriteLoop
    dsimp only [Mutator.rand]
    obtain ⟨bs, m4, hdraw⟩ := magicDraw_total (xorshift_step (xorshift_step m.rng) % 2 = 0)
      { m with rng := xorshift_step (xorshift_step (xorshift_step m.rng)) }
      (MAGIC_NUMBERS.getD (xorshift_step m.rng % MAGIC_NUMBERS.length) 0)
    rw [hdraw]
    dsimp only
    obtain ⟨hbl, hi, _⟩ := magicDraw_state _ _ _ _ _ hdraw
    have hi2 : m4.input = m.input := hi
    obtain ⟨l2, hw, hlw⟩ := writeBytes_total bs m4.input (m.rng % (mo + 1)) (by
      rw [hi2]
      have hidx : m.rng % (mo + 1) < mo + 1 := Nat.mod_lt _ (by omega)
      omega)
    rw [hw]
    dsimp only
    obtain ⟨m', hrec⟩ := ih mo { m4 with input := l2 } (by
      show mo + 8 ≤ l2.length
      rw [hlw, hi2]; omega)
    exact ⟨m', hrec⟩

theorem magic_byte_overwrite_noop : ∀ m : Mutator, m.input.length < 8 →
    magic_byte_overwrite m = some m := by
  intro m h
  unfold magic_byte_overwrite
  rw [if_pos h]

theorem magic_byte_overwrite_total : ∀ m : Mutator, 8 ≤ m.input.length →
    m.input.length < U64 → ∃ m', magic_byte_overwrite m = some m' := by
  intro m h8 hu
  unfold magic_byte_overwrite
  dsimp only [Mutator.rand]
  rw [if_neg (by omega)]
  have hc : min m.input.length MAX_BYTE_CORRUPTION ≠ 0 := by
    unfold MAX_BYTE_CORRUPTION
    omega
  rw [show rmod m.rng (min m.input.length MAX_BYTE_CORRUPTION) =
      some (m.rng % min m.input.length MAX_BYTE_CORRUPTION) from by
    unfold rmod; rw [if_neg hc]]
  dsimp only
  apply magicOverwriteLoop_total
  show wsub m.input.length 8 + 8 ≤ m.input.length
  rw [wsub_of_le h8 hu]
  omega

theorem splice_spec : ∀ m c m', splice m c = some m' →
    m'.max_size = m.max_size ∧ (1 ≤ m.input.length → 1 ≤ m'.input.length) := by
  intro m c m' h
  unfold splice at h
  dsimp only [Mutator.rand] at h
  split at h
  · exact Option.noConfusion h
  · rename_i obs hobs
    split at h
    · exact Option.noConfusion h
    · rename_i v2 hv2
      split at h
      · exact Option.noConfusion h
      · rename_i nidx hnidx
        split at h
        · cases h; exact ⟨rfl, fun h1 => h1⟩
        · rename_i new_input hget
          split at h
          · cases h; exact ⟨rfl, fun h1 => h1⟩
          · split at h
            · exact Option.noConfusion h
            · rename_i nbs hnbs
              split at h
              · exact Option.noConfusion h
              · rename_i v5 hv5
                split at h
                · exact Option.noConfusion h
                · rename_i old_block hob
                  split at h
                  · exact Option.noConfusion h
                  · rename_i input2 hw2
                    split at h
                    · exact Option.noConfusion h
                    · rename_i new_block hnb
                      split at h
                      · exact Option.noConfusion h
                      · rename_i input3 hw3
                        cases h
                        have e3 := writeBytes_length _ _ _ _ hw3
                        have e2 := writeBytes_length _ _ _ _ hw2
                        refine ⟨rfl, fun h1 => ?_⟩
                        dsimp only
                        split
                        · rw [List.length_take]
                          omega
                        · rw [e3, e2]
                          split
                          · rw [listResize_length]; omega
                          · exact h1

theorem generate_random_input_spec : ∀ m m', generate_random_input m = some m' →
    m'.max_size = m.max_size ∧ 1 ≤ m'.input.length ∧ m'.input.length ≤ m.max_size := by
  intro m m' h
  unfold generate_random_input at h
  dsimp only [Mutator.rand] at h
  split at h
  · exact Option.noConfusion h
  · rename_i v heq
    cases h
    obtain ⟨hb, hv⟩ := rmod_eq_some heq
    obtain ⟨hmax, hlen⟩ := fillLoop_spec (v + 1) 0
      { rng := xorshift_step m.rng, input := listResize m.input (v + 1) 0,
        max_size := m.max_size, last_mutation := m.last_mutation }
    have hlen2 : (fillLoop (v + 1) 0
      { rng := xorshift_step m.rng, input := listResize m.input (v + 1) 0,
        max_size := m.max_size, last_mutation := m.last_mutation }).input.length
        = (listResize m.input (v + 1) 0).length := hlen
    rw [listResize_length] at hlen2
    have hvm : v < m.max_size := by
      rw [hv]; exact Nat.mod_lt _ (Nat.pos_of_ne_zero hb)
    refine ⟨hmax, ?_, ?_⟩
    · rw [hlen2]; omega
    · rw [hlen2]; omega

theorem pushTag_fields : ∀ t m, (pushTag t m).input = m.input ∧
    (pushTag t m).max_size = m.max_size := by
  intro t m
  exact ⟨rfl, rfl⟩

theorem applyMutation_spec : ∀ t c m m', applyMutation t c m = some m' →
    m'.max_size = m.max_size ∧
    (1 ≤ m.input.length → m.input.length < U64 → 1 ≤ m'.input.length) := by
  intro t c m m' h
  cases t <;>
    (simp only [applyMutation, Option.map_eq_some'] at h
     obtain ⟨m0, hop, hpush⟩ := h
     subst hpush)
  case ByteInsert =>
    obtain ⟨hmax, hlen⟩ := byte_insert_spec _ _ hop
    refine ⟨hmax, fun h1 hu => ?_⟩
    show 1 ≤ m0.input.length
    omega
  case ByteOverwrite =>
    obtain ⟨hmax, hlen⟩ := byte_overwrite_spec _ _ hop
    refine ⟨hmax, fun h1 hu => ?_⟩
    show 1 ≤ m0.input.length
    omega
  case ByteDelete =>
    obtain ⟨hmax, hlen⟩ := byte_delete_spec _ _ hop
    refine ⟨hmax, fun h1 hu => ?_⟩
    show 1 ≤ m0.input.length
    exact hlen h1 hu
  case BlockInsert =>
    obtain ⟨hmax, hlen⟩ := block_insert_spec _ _ hop
    refine ⟨hmax, fun h1 hu => ?_⟩
    show 1 ≤ m0.input.length
    omega
  case BlockOverwrite =>
    obtain ⟨hmax, hlen⟩ := block_overwrite_spec _ _ hop
    refine ⟨hmax, fun h1 hu => ?_⟩
    show 1 ≤ m0.input.length
    omega
  case BlockDelete =>
    obtain ⟨hmax, hlen⟩ := block_delete_spec _ _ hop
    refine ⟨hmax, fun h1 hu => ?_⟩
    show 1 ≤ m0.input.length
    exact hlen h1 hu
  case BitFlip =>
    obtain ⟨hmax, hlen⟩ := bit_flip_spec _ _ hop
    refine ⟨hmax, fun h1 hu => ?_⟩
    show 1 ≤ m0.input.length
    omega
  case Grow =>
    obtain ⟨hmax, hlen⟩ := grow_spec _ _ hop
    refine ⟨hmax, fun h1 hu => ?_⟩
    show 1 ≤ m0.input.length
    omega
  case Truncate =>
    obtain ⟨hmax, hlen⟩ := truncate_spec _ _ hop
    refine ⟨hmax, fun h1 hu => ?_⟩
    show 1 ≤ m0.input.length
    exact hlen h1
  case MagicByteInsert =>
    obtain ⟨hmax, hlen⟩ := magic_byte_insert_spec _ _ hop
    refine ⟨hmax, fun h1 hu => ?_⟩
    show 1 ≤ m0.input.length
    omega
  case MagicByteOverwrite =>
    obtain ⟨hmax, hlen⟩ := magic_byte_overwrite_spec _ _ hop
    refine ⟨hmax, fun h1 hu => ?_⟩
    show 1 ≤ m0.input.length
    omega
  case Splice =>
    obtain ⟨hmax, hlen⟩ := splice_spec _ _ _ hop
    refine ⟨hmax, fun h1 hu => ?_⟩
    show 1 ≤ m0.input.length
    exact hlen h1

theorem roundsLoop_spec : ∀ n c m m', roundsLoop n c m = some m' →
    m'.max_size = m.max_size := by
  intro n
  induction n with
  | zero => intro c m m' h; cases h; rfl
  | succ n ih =>
    intro c m m' h
    unfold roundsLoop at h
    dsimp only [Mutator.rand] at h
    split at h
    · exact Option.noConfusion h
    · rename_i m3 happ
      have h1 := ih _ _ _ h
      have h2 := (applyMutation_spec _ _ _ _ happ).1
      rw [h1]
      exact h2

theorem mutate_input_spec : ∀ m c m', mutate_input m c = some m' →
    m'.max_size = m.max_size ∧ 1 ≤ m'.input.length ∧ m'.input.length ≤ m.max_size := by
  intro m c m' h
  unfold mutate_input at h
  dsimp only [Mutator.rand] at h
  split at h
  · obtain ⟨hmax, h1, h2⟩ := generate_random_input_spec _ _ h
    exact ⟨hmax, h1, h2⟩
  · split at h
    · exact Option.noConfusion h
    · rename_i chosen hget
      split at h
      · exact Option.noConfusion h
      · rename_i m5 hloop
        split at h
        · exact Option.noConfusion h
        · split at h
          · exact Option.noConfusion h
          · rename_i hne hle
            cases h
            have hmax1 := roundsLoop_spec _ _ _ _ hloop
            have hmax2 : m'.max_size = m.max_size := hmax1
            refine ⟨hmax2, by omega, by omega⟩

theorem xor_shiftLeft_ne_zero (k : Nat) (hcop : Nat.Coprime (2 ^ 64) (2 ^ k - 1))
    (x : Nat) (hx : x < 2 ^ 64) (hne : x ≠ 0) : x ^^^ ((x <<< k) % 2 ^ 64) ≠ 0 := by
  intro h
  have hx2 : x = (x <<< k) % 2 ^ 64 := Nat.xor_eq_zero.mp h
  rw [Nat.shiftLeft_eq] at hx2
  have hmeq : x ≡ x * 2 ^ k [MOD 2 ^ 64] := by
    show x % 2 ^ 64 = x * 2 ^ k % 2 ^ 64
    rw [Nat.mod_eq_of_lt hx]
    exact hx2
  have hle : x ≤ x * 2 ^ k := Nat.le_mul_of_pos_right x (Nat.two_pow_pos k)
  have hdvd : 2 ^ 64 ∣ x * 2 ^ k - x := (Nat.modEq_iff_dvd' hle).mp hmeq
  have heq : x * 2 ^ k - x = x * (2 ^ k - 1) := (Nat.mul_sub_one x (2 ^ k)).symm
  rw [heq] at hdvd
  have hdx : 2 ^ 64 ∣ x := hcop.dvd_of_dvd_mul_right hdvd
  exact hne (Nat.eq_zero_of_dvd_of_lt hdx hx)

theorem xor_shiftRight_ne_zero (x : Nat) (hne : x ≠ 0) : x ^^^ (x >>> 17) ≠ 0 := by
  intro h
  have hx2 : x = x >>> 17 := Nat.xor_eq_zero.mp h
  rw [Nat.shiftRight_eq_div_pow] at hx2
  have hlt : x / 2 ^ 17 < x := Nat.div_lt_self (Nat.pos_of_ne_zero hne) (by norm_num)
  omega

theorem coprime_two_pow_13 : Nat.Coprime (2 ^ 64) (2 ^ 13 - 1) :=
  Nat.Coprime.pow_left 64 (Nat.coprime_two_left.mpr (Nat.odd_iff.mpr (by decide)))

theorem coprime_two_pow_43 : Nat.Coprime (2 ^ 64) (2 ^ 43 - 1) :=
  Nat.Coprime.pow_left 64 (Nat.coprime_two_left.mpr (Nat.odd_iff.mpr (by decide)))

theorem xorshift_step_lt (s : Nat) (hs : s < U64) : xorshift_step s < U64 := by
  have hp : (0 : Nat) < 2 ^ 64 := by norm_num
  have h1 : s ^^^ ((s <<< 13) % 2 ^ 64) < 2 ^ 64 :=
    Nat.xor_lt_two_pow hs (Nat.mod_lt _ hp)
  have h2 : (s ^^^ ((s <<< 13) % 2 ^ 64)) ^^^ ((s ^^^ ((s <<< 13) % 2 ^ 64)) >>> 17) < 2 ^ 64 :=
    Nat.xor_lt_two_pow h1 (by
      rw [Nat.shiftRight_eq_div_pow]
      exact Nat.lt_of_le_of_lt (Nat.div_le_self _ _) h1)
  exact Nat.xor_lt_two_pow h2 (Nat.mod_lt _ hp)

theorem xorshift_step_ne_zero (s : Nat) (hs : s < U64) (h0 : s ≠ 0) : xorshift_step s ≠ 0 := by
  have hp : (0 : Nat) < 2 ^ 64 := by norm_num
  have h1 : s ^^^ ((s <<< 13) % 2 ^ 64) ≠ 0 := xor_shiftLeft_ne_zero 13 coprime_two_pow_13 s hs h0
  have h1b : s ^^^ ((s <<< 13) % 2 ^ 64) < 2 ^ 64 :=
    Nat.xor_lt_two_pow hs (Nat.mod_lt _ hp)
  have h2 : (s ^^^ ((s <<< 13) % 2 ^ 64)) ^^^ ((s ^^^ ((s <<< 13) % 2 ^ 64)) >>> 17) ≠ 0 :=
    xor_shiftRight_ne_zero _ h1
  have h2b : (s ^^^ ((s <<< 13) % 2 ^ 64)) ^^^ ((s ^^^ ((s <<< 13) % 2 ^ 64)) >>> 17) < 2 ^ 64 :=
    Nat.xor_lt_two_pow h1b (by
      rw [Nat.shiftRight_eq_div_pow]
      exact Nat.lt_of_le_of_lt (Nat.div_le_self _ _) h1b)
  exact xor_shiftLeft_ne_zero 43 coprime_two_pow_43 _ h2b h2

theorem randIter_nonzero : ∀ n (m : Mutator), m.rng < U64 → m.rng ≠ 0 →
    (randIter n m).rng < U64 ∧ (randIter n m).rng ≠ 0 := by
  intro n
  induction n with
  | zero => intro m h1 h2; exact ⟨h1, h2⟩
  | succ n ih =>
    intro m h1 h2
    unfold randIter
    dsimp only [Mutator.rand]
    exact ih _ (xorshift_step_lt _ h1) (xorshift_step_ne_zero _ h1 h2)

/-- Claim C1: for every mutator state (hence every seed), every corpus, and
every `max_size >= 1`, when `mutate_input` returns (rather than panicking on
one of its two trailing assertions), the working buffer satisfies
`1 <= input.len() <= max_size`. -/
theorem claim_C1_output_bounds : ∀ (m : Mutator) (c : Corpus), 1 ≤ m.max_size →
    ∀ m', mutate_input m c = some m' →
      1 ≤ m'.input.length ∧ m'.input.length ≤ m.max_size := by
  intro m c _ m' h
  obtain ⟨_, h1, h2⟩ := mutate_input_spec _ _ _ h
  exact ⟨h1, h2⟩

theorem claim_C1_witness :
    1 ≤ (16 : Nat) ∧
      (1 ≤ (Mutator.mk 281474976972835 [1, 33] 16 []).input.length ∧
        (Mutator.mk 281474976972835 [1, 33] 16 []).input.length ≤ 16) :=
  ⟨by decide, claim_C1_output_bounds ⟨1, [], 16, []⟩ [] (by decide) _ (by decide)⟩

/-- Claim C2: two Mutators constructed with the same seed and max_size,
run for any number of `mutate_input` calls against identical corpora,
produce byte-identical input buffers and identical `last_mutation`
sequences. -/
theorem claim_C2_determinism : ∀ (seed tsc max_size n : Nat) (c1 c2 : Corpus), c1 = c2 →
    (iterMutate n c1 (Mutator.new (some seed) tsc max_size)).map
        (fun m => (m.input, m.last_mutation)) =
      (iterMutate n c2 (Mutator.new (some seed) tsc max_size)).map
        (fun m => (m.input, m.last_mutation)) := by
  intro seed tsc max_size n c1 c2 h
  subst h
  rfl

theorem claim_C2_witness :
    (iterMutate 2 [[1, 2]] (Mutator.new (some 7) 0 16)).map
        (fun m => (m.input, m.last_mutation)) =
      (iterMutate 2 [[1, 2]] (Mutator.new (some 7) 0 16)).map
        (fun m => (m.input, m.last_mutation)) :=
  claim_C2_determinism 7 0 16 2 [[1, 2]] [[1, 2]] rfl

/-- Claim C3: one call of `rand` returns exactly the pre-shift state and
leaves the state equal to the result of `s ^= s<<13; s ^= s>>17; s ^= s<<43`
on 64-bit words, touching no other field. -/
theorem claim_C3_rand_pre_shift : ∀ m : Mutator,
    (m.rand).1 = m.rng ∧
    ((m.rand).2).rng =
      (let s1 := m.rng ^^^ ((m.rng <<< 13) % 2 ^ 64)
       let s2 := s1 ^^^ (s1 >>> 17)
       s2 ^^^ ((s2 <<< 43) % 2 ^ 64)) ∧
    ((m.rand).2).input = m.input ∧ ((m.rand).2).max_size = m.max_size ∧
    ((m.rand).2).last_mutation = m.last_mutation :=
  fun _ => ⟨rfl, rfl, rfl, rfl, rfl⟩

/-- Claim C4 (code bug): `Mutator::new` stores an explicitly provided seed
unchecked, so `new(Some(0), _)` yields `rng = 0`, and `reseed` likewise
stores whatever the TSC hash produced, so a zero hash yields `rng = 0` —
contradicting the claim that `rng != 0` after `new` and after every
`reseed`. -/
theorem claim_C4_zero_seed_accepted :
    (Mutator.new (some 0) 0 16).rng = 0 ∧ ((Mutator.mk 1 [] 4 []).reseed 0).2.rng = 0 :=
  ⟨rfl, rfl⟩

/-- Claim C5: from any nonzero 64-bit state, the xorshift state stays
nonzero after any finite number of `rand` draws. -/
theorem claim_C5_prng_nonzero : ∀ m : Mutator, m.rng < 2 ^ 64 → m.rng ≠ 0 →
    ∀ n, (randIter n m).rng ≠ 0 := by
  intro m h1 h2 n
  exact (randIter_nonzero n m h1 h2).2

theorem claim_C5_witness :
    ((1 : Nat) < 2 ^ 64) ∧ ((1 : Nat) ≠ 0) ∧ (randIter 2 ⟨1, [], 4, []⟩).rng ≠ 0 :=
  ⟨by decide, by decide, claim_C5_prng_nonzero ⟨1, [], 4, []⟩ (by decide) (by decide) 2⟩

/-- Claim C6: on a non-empty buffer (of machine-representable length), no
single dispatched mutation operator that returns normally leaves the buffer
empty. -/
theorem claim_C6_no_op_below_one : ∀ (t : MutationTypes) (c : Corpus) (m : Mutator),
    1 ≤ m.input.length → m.input.length < 2 ^ 64 →
    ∀ m', applyMutation t c m = some m' → 1 ≤ m'.input.length := by
  intro t c m h1 h2 m' h
  exact (applyMutation_spec t c m m' h).2 h1 h2

theorem claim_C6_witness :
    1 ≤ List.length [5, 6] ∧ List.length [5, 6] < 2 ^ 64 ∧
      1 ≤ (Mutator.mk 2377909399344652323 [5, 35] 16 [.ByteOverwrite]).input.length :=
  ⟨by decide, by decide,
    claim_C6_no_op_below_one .ByteOverwrite [] ⟨1, [5, 6], 16, []⟩ (by decide) (by decide) _
      (by decide)⟩

/-- Claim C7 counterexample: on an empty buffer, `byte_overwrite` is not a
no-op that returns the unchanged buffer — it panics (`rand() % 0`), so no
normal return exists. -/
theorem claim_C7_counterexample :
    ¬ ∃ m', byte_overwrite ⟨1, [], 16, []⟩ = some m' ∧ m'.input = ([] : List Nat) := by
  intro ⟨m', h, _⟩
  rw [show byte_overwrite ⟨1, [], 16, []⟩ = none from rfl] at h
  exact Option.noConfusion h

/-- Claim C7 (amended): when the input buffer is empty, `byte_overwrite`
panics with a division by zero (`ceiling = min(0, 64) = 0` and
`rand() % ceiling`); it never returns, so the buffer is never modified. -/
theorem claim_C7_amended : ∀ m : Mutator, m.input = [] → byte_overwrite m = none := by
  intro m h
  unfold byte_overwrite
  dsimp only [Mutator.rand]
  rw [h]
  rfl

theorem claim_C7_witness : byte_overwrite ⟨1, [], 16, []⟩ = none :=
  claim_C7_amended ⟨1, [], 16, []⟩ rfl

/-- Claim C8: the `m - 1` and `m + 1` transforms of `mutate_magic` use
wrapping 64-bit arithmetic: when the transform draw selects case 4 on
magic 0 the result is `u64::MAX`, and when it selects case 5 on `u64::MAX`
the result is 0; neither is an error. -/
theorem claim_C8_wrapping : ∀ m : Mutator,
    (m.rng % 14 = 4 → magicTransform m 0 = some (2 ^ 64 - 1, (m.rand).2)) ∧
    (m.rng % 14 = 5 → magicTransform m (2 ^ 64 - 1) = some (0, (m.rand).2)) := by
  intro m
  constructor
  · intro h
    unfold magicTransform
    dsimp only [Mutator.rand]
    rw [h]
    show some (wsub 0 1, _) = _
    rw [show wsub 0 1 = 2 ^ 64 - 1 from by decide]
  · intro h
    unfold magicTransform
    dsimp only [Mutator.rand]
    rw [h]
    show some ((2 ^ 64 - 1 + 1) % U64, _) = _
    rw [show (2 ^ 64 - 1 + 1) % U64 = 0 from by decide]

theorem claim_C8_witness :
    ((4 : Nat) % 14 = 4) ∧
    magicTransform ⟨4, [], 0, []⟩ 0 = some (2 ^ 64 - 1, (Mutator.rand ⟨4, [], 0, []⟩).2) ∧
    ((5 : Nat) % 14 = 5) ∧
    magicTransform ⟨5, [], 0, []⟩ (2 ^ 64 - 1) = some (0, (Mutator.rand ⟨5, [], 0, []⟩).2) :=
  ⟨by decide, (claim_C8_wrapping ⟨4, [], 0, []⟩).1 (by decide), by decide,
    (claim_C8_wrapping ⟨5, [], 0, []⟩).2 (by decide)⟩

/-- Claim C9: `magic_byte_overwrite` is a no-op (input unchanged, normal
return) whenever the input is shorter than 8 bytes, and on inputs of length
at least 8 every write lands in bounds: the operator returns normally and
the length is unchanged. -/
theorem claim_C9_magic_overwrite_bounds : ∀ m : Mutator, m.input.length < 2 ^ 64 →
    (m.input.length < 8 → magic_byte_overwrite m = some m) ∧
    (8 ≤ m.input.length →
      ∃ m', magic_byte_overwrite m = some m' ∧ m'.input.length = m.input.length) := by
  intro m hu
  constructor
  · intro h8
    exact magic_byte_overwrite_noop m h8
  · intro h8
    obtain ⟨m', hm⟩ := magic_byte_overwrite_total m h8 hu
    exact ⟨m', hm, (magic_byte_overwrite_spec _ _ hm).2⟩

theorem claim_C9_witness :
    (List.length [1, 2, 3, 4, 5, 6, 7] < 2 ^ 64) ∧
    magic_byte_overwrite ⟨5, [1, 2, 3, 4, 5, 6, 7], 16, []⟩ =
      some ⟨5, [1, 2, 3, 4, 5, 6, 7], 16, []⟩ ∧
    (∃ m', magic_byte_overwrite ⟨5, [1, 2, 3, 4, 5, 6, 7, 8, 9], 16, []⟩ = some m' ∧
      m'.input.length = List.length [1, 2, 3, 4, 5, 6, 7, 8, 9]) :=
  ⟨by decide,
    (claim_C9_magic_overwrite_bounds ⟨5, [1, 2, 3, 4, 5, 6, 7], 16, []⟩ (by decide)).1
      (by decide),
    (claim_C9_magic_overwrite_bounds ⟨5, [1, 2, 3, 4, 5, 6, 7, 8, 9], 16, []⟩ (by decide)).2
      (by decide)⟩

/-- Claim C10: for every magic value and every PRNG state, the byte
sequence returned by `mutate_magic` has length 1, 2, 4 or 8 — never 6 or
any other length. -/
theorem claim_C10_magic_length : ∀ (m : Mutator) (g : Nat) (bs : List Nat) (m1 : Mutator),
    mutate_magic m g = some (bs, m1) →
    bs.length = 1 ∨ bs.length = 2 ∨ bs.length = 4 ∨ bs.length = 8 := by
  intro m g bs m1 h
  exact mutate_magic_len m g bs m1 h

theorem claim_C10_witness :
    List.length ([0, 0] : List Nat) = 1 ∨ List.length ([0, 0] : List Nat) = 2 ∨
      List.length ([0, 0] : List Nat) = 4 ∨ List.length ([0, 0] : List Nat) = 8 :=
  claim_C10_magic_length ⟨3, [], 8, []⟩ 0 [0, 0] ⟨13510798882113027, [], 8, []⟩ (by decide)
